import Mathlib

/-!
Verification development for the audio-analysis engine in
src/server/audio_analysis.py (functions advanced_bpm_detection,
advanced_key_detection, analyze_audio_features).

Embedding conventions:
- Python floats are modelled as rationals (ℚ); float rounding noise is
  outside the model.
- numpy comparisons with the population standard deviation
  (|x - median| <= 2 * std, std = sqrt(variance)) are embedded as the
  equivalent square comparison (x - median)^2 <= 4 * variance, which avoids
  irrational square roots and is equivalent over the reals since both sides
  of the original comparison are nonnegative.
- Python round(x, n) (round-half-even on binary floats) is embedded as
  round-half-up on rationals; no statement below depends on tie behaviour.
- np.corrcoef (Pearson correlation, which involves a square root) enters the
  key detector as an abstract parameter together with the square
  characterisation PearsonChar that pins its value; the covariance and
  variance it is characterised by are computed exactly in ℚ.
- External collaborators (librosa, essentia, file system) appear as inputs:
  onset timestamps, the beat-tracker and histogram outputs, chroma mean
  vectors, and the decode/extraction outcome of analyze_audio_features.
-/

/-- Round to 1 decimal place, as in round(x, 1) at line 252. -/
def round1 (q : ℚ) : ℚ := (⌊10 * q + 1/2⌋ : ℚ) / 10

/-- Round to 2 decimal places, as in round(x, 2) at lines 252 and 361. -/
def round2 (q : ℚ) : ℚ := (⌊100 * q + 1/2⌋ : ℚ) / 100

/-- Round to 4 decimal places, as in round(x, 4) at lines 408-409. -/
def round4 (q : ℚ) : ℚ := (⌊10000 * q + 1/2⌋ : ℚ) / 10000

/-- np.mean of a list. -/
def listMean (l : List ℚ) : ℚ := l.sum / (l.length : ℚ)

/-- np.median: middle element of the sorted list, or the mean of the two
middle elements for even length. -/
def median (l : List ℚ) : ℚ :=
  let s := l.insertionSort (· ≤ ·)
  if l.length % 2 = 1 then s.getD (l.length / 2) 0
  else (s.getD (l.length / 2 - 1) 0 + s.getD (l.length / 2) 0) / 2

/-- Population variance, (np.std)^2: mean squared deviation from the mean. -/
def variance (l : List ℚ) : ℚ :=
  (l.map (fun x => (x - listMean l)^2)).sum / (l.length : ℚ)

/-- np.average(values, weights): weighted average of candidate values
(candidates are (value, weight) pairs), lines 236-237. -/
def wavg (l : List (ℚ × ℚ)) : ℚ :=
  (l.map (fun c => c.1 * c.2)).sum / (l.map (fun c => c.2)).sum

/-- Octave (tempo doubling/halving) correction, lines 240-250: applied once
to the aggregated BPM, no recursion. -/
def octaveCorrect (b : ℚ) : ℚ :=
  if 160 < b then (if 80 ≤ b / 2 ∧ b / 2 ≤ 140 then b / 2 else b)
  else if b < 80 then (if 120 ≤ b * 2 ∧ b * 2 ≤ 160 then b * 2 else b)
  else b

/-- Outlier-removal stage of advanced_bpm_detection, lines 224-231: when
there are more than 2 candidates, drop those whose value deviates from the
median of values by more than twice the population standard deviation
(embedded as the equivalent square comparison). -/
def outlierStage (l : List (ℚ × ℚ)) : List (ℚ × ℚ) :=
  if 2 < l.length then
    l.filter (fun c =>
      decide ((c.1 - median (l.map (fun c => c.1)))^2
        ≤ 4 * variance (l.map (fun c => c.1))))
  else l

/-- Candidate aggregation of advanced_bpm_detection, lines 217-252: empty
candidates give (None, 0.0); otherwise outlier removal, then a (value,
confidence) pair from the weighted average of values and the unweighted
mean of weights, octave correction, and rounding. -/
def bpm_aggregate (l : List (ℚ × ℚ)) : Option ℚ × ℚ :=
  if l = [] then (none, 0)
  else
    let l2 := outlierStage l
    if l2 = [] then (none, 0)
    else (some (round1 (octaveCorrect (wavg l2))),
          round2 (listMean (l2.map (fun c => c.2))))

/-- np.diff: successive differences. -/
def diffs (l : List ℚ) : List ℚ := List.zipWith (fun a b => b - a) l l.tail

/-- Method 2 of advanced_bpm_detection, lines 156-167: onset-interval tempo
candidate from detected onset timestamps. -/
def onset_strategy (onsets : List ℚ) : List (ℚ × ℚ) :=
  if 3 < onsets.length then
    let ivs := diffs onsets
    if 0 < ivs.length then
      let bpm := 60 / median ivs
      if 40 ≤ bpm ∧ bpm ≤ 200 then [(bpm, 3/5)] else []
    else []
  else []

/-- Method 3 of advanced_bpm_detection, lines 169-181: the essentia
BPM-histogram candidate. The code loads the fixed file named "temp"
(es.MonoLoader(filename="temp")) and never touches the input waveform; the
environment is modelled as the histogram descriptor BPM read from that
file (none when any step of the essentia pipeline fails). -/
def essentia_strategy (tempFileBpm : Option ℚ) (_y : List ℚ) (_sr : ℚ) :
    List (ℚ × ℚ) :=
  match tempFileBpm with
  | none => []
  | some b => if 0 < b then [(b, 4/5)] else []

/-- Major / minor mode of a key hypothesis. -/
inductive Mode where
  | major : Mode
  | minor : Mode
deriving DecidableEq

/-- A key hypothesis: pitch class 0..11 (0 = C, as in pitch_names, line 283)
together with a mode. The code labels slots with strings such as
"C# minor"; the labelling is bijective, so slots are embedded as pairs. -/
abbrev Key := Fin 12 × Mode

/-- A 12-bin chroma / profile vector. -/
abbrev Vec12 := Fin 12 → ℚ

/-- np.sum of a 12-vector. -/
def vsum (v : Vec12) : ℚ := ((List.finRange 12).map v).sum

/-- Normalisation to sum 1 (chroma_mean / np.sum(chroma_mean), profiles at
lines 280-281). -/
def normalizeV (v : Vec12) : Vec12 := fun j => v j / vsum v

/-- np.roll(p, i): circular shift placing p[(n - i) mod 12] at position n. -/
def rollq (v : Vec12) (i : Fin 12) : Vec12 := fun n => v (n - i)

/-- Dot product of 12-vectors. -/
def dotq (v w : Vec12) : ℚ := ((List.finRange 12).map (fun j => v j * w j)).sum

/-- Covariance of two 12-vectors viewed as samples:
E[vw] - E[v]E[w], the quantity whose normalised form np.corrcoef returns. -/
def qcov (v w : Vec12) : ℚ := dotq v w / 12 - (vsum v / 12) * (vsum w / 12)

/-- Variance of a 12-vector viewed as a sample. -/
def qvar (v : Vec12) : ℚ := qcov v v

/-- Integer Krumhansl-Schmuckler major profile, line 276, scaled by 100:
[6.35, 2.23, 3.48, 2.33, 4.38, 4.09, 2.52, 5.19, 2.39, 3.66, 2.29, 2.88]. -/
def imaj : Fin 12 → ℤ :=
  fun j => [635, 223, 348, 233, 438, 409, 252, 519, 239, 366, 229, 288].getD j.val 0

/-- Integer Krumhansl-Schmuckler minor profile, line 277, scaled by 100:
[6.33, 2.68, 3.52, 5.38, 2.60, 3.53, 2.54, 4.75, 3.98, 2.69, 3.34, 3.17]. -/
def imin : Fin 12 → ℤ :=
  fun j => [633, 268, 352, 538, 260, 353, 254, 475, 398, 269, 334, 317].getD j.val 0

/-- The major key profile of line 276 (decimal entries = integer table / 100). -/
def major_profile : Vec12 := fun j => (imaj j : ℚ) / 100

/-- The minor key profile of line 277. -/
def minor_profile : Vec12 := fun j => (imin j : ℚ) / 100

/-- Normalised major profile (line 280). -/
def major_profile_n : Vec12 := normalizeV major_profile

/-- Normalised minor profile (line 281). -/
def minor_profile_n : Vec12 := normalizeV minor_profile

/-- The rotated normalised profile a key hypothesis is scored against
(np.roll(major_profile, i) / np.roll(minor_profile, i), lines 295 / 301). -/
def profOf : Key → Vec12
  | (i, Mode.major) => rollq major_profile_n i
  | (i, Mode.minor) => rollq minor_profile_n i

/-- The 24 correlation candidates one chroma variant contributes
(lines 287-304 for the three chroma variants; lines 328-339 for the
harmonic variant with weight 0.6): for each pitch class, the major
candidate then the minor candidate, skipped when the correlation is NaN
(corr = none). corr is the abstract np.corrcoef primitive. -/
def chromaCands (corr : Vec12 → Vec12 → Option ℚ) (cm : Vec12) (w : ℚ) :
    List (Key × ℚ) :=
  (List.finRange 12).flatMap (fun i =>
    (match corr (normalizeV cm) (rollq major_profile_n i) with
     | some c => [(((i, Mode.major) : Key), c * w)]
     | none => []) ++
    (match corr (normalizeV cm) (rollq minor_profile_n i) with
     | some c => [(((i, Mode.minor) : Key), c * w)]
     | none => []))

/-- One step of the dict accumulation at lines 347-352: add the score to an
existing slot in place, else append the slot at the end (Python dicts
preserve insertion order). -/
def updateAssoc : List (Key × ℚ) → Key → ℚ → List (Key × ℚ)
  | [], k, s => [(k, s)]
  | (k0, s0) :: t, k, s =>
      if k0 = k then (k0, s0 + s) :: t else (k0, s0) :: updateAssoc t k s

/-- The aggregation dict key_aggregated of lines 347-352, as an
insertion-ordered association list. -/
def aggregateScores (l : List (Key × ℚ)) : List (Key × ℚ) :=
  l.foldl (fun d e => updateAssoc d e.1 e.2) []

/-- Python max(d, key=d.get), line 355: scan in insertion order keeping the
current entry unless a later entry is strictly greater, so the first
entry attaining the maximum wins. -/
def pythonMax : List (Key × ℚ) → Option (Key × ℚ)
  | [] => none
  | e :: es => some (es.foldl (fun acc x => if acc.2 < x.2 then x else acc) e)

/-- Sum of the scores a candidate list gives to one slot. -/
def slotScore (l : List (Key × ℚ)) (k : Key) : ℚ :=
  ((l.filter (fun e => decide (e.1 = k))).map (fun e => e.2)).sum

/-- Aggregation part of advanced_key_detection, lines 343-361: empty
candidates give ("Unknown", 0.0) (embedded as none); otherwise accumulate
scores per slot, take the maximal slot, and clamp its score to [0, 1]
rounded to 2 decimals as the confidence. -/
def key_aggregate (cands : List (Key × ℚ)) : Option Key × ℚ :=
  if cands = [] then (none, 0)
  else
    match pythonMax (aggregateScores cands) with
    | some (k, s) => (some k, round2 (min 1 (max 0 s)))
    | none => (none, 0)

/-- advanced_key_detection, lines 258-361, as a function of the three chroma
mean vectors (chroma_stft / chroma_cqt / chroma_cens time means), the
optional essentia KeyExtractor output (key, strength), the optional
harmonic-component chroma mean, and the abstract correlation primitive.
Candidate order follows the code: three weighted chroma blocks
(weights 0.4, 0.4, 0.2), then essentia (strength > 0.1, weight
strength * 0.8), then the harmonic block (weight 0.6). -/
def advanced_key_detection (corr : Vec12 → Vec12 → Option ℚ)
    (c1 c2 c3 : Vec12) (ess : Option (Key × ℚ)) (harm : Option Vec12) :
    Option Key × ℚ :=
  let essCands : List (Key × ℚ) :=
    match ess with
    | some ks => if 1/10 < ks.2 then [(ks.1, ks.2 * (4/5))] else []
    | none => []
  let harmCands : List (Key × ℚ) :=
    match harm with
    | some h => chromaCands corr h (3/5)
    | none => []
  key_aggregate (chromaCands corr c1 (2/5) ++ chromaCands corr c2 (2/5) ++
    chromaCands corr c3 (1/5) ++ essCands ++ harmCands)

/-- Characterisation of np.corrcoef's off-diagonal entry c = cov / (σv σw):
whenever it is defined (not NaN) its square times both variances equals the
squared covariance, and it has the sign of the covariance. This pins the
correlation value exactly without computing square roots. -/
def PearsonChar (corr : Vec12 → Vec12 → Option ℚ) : Prop :=
  ∀ v w c, corr v w = some c →
    c^2 * qvar v * qvar w = (qcov v w)^2 ∧ (0 ≤ c ↔ 0 ≤ qcov v w)

/-- A concrete correlation primitive defined only on identical
positive-variance arguments, where the correlation is exactly 1. -/
def corrExact : Vec12 → Vec12 → Option ℚ := fun v w =>
  if v = w ∧ 0 < qvar v then some 1 else none

/-- Integer-vector sum (for exact profile computations). -/
def isum (x : Fin 12 → ℤ) : ℤ := ((List.finRange 12).map x).sum

/-- Integer-vector dot product. -/
def idot (x y : Fin 12 → ℤ) : ℤ := ((List.finRange 12).map (fun j => x j * y j)).sum

/-- Integer-vector circular shift, matching rollq. -/
def irolli (x : Fin 12 → ℤ) (i : Fin 12) : Fin 12 → ℤ := fun n => x (n - i)

/-- 144 times the covariance of two integer 12-vectors. -/
def icov (x y : Fin 12 → ℤ) : ℤ := 12 * idot x y - isum x * isum y

/-- An integer vector divided by a rational scale. -/
def iscale (a : ℚ) (x : Fin 12 → ℤ) : Vec12 := fun j => (x j : ℚ) / a

/-- The successfully extracted feature record of analyze_audio_features
(lines 374-397): everything computed before the result dict is built.
bpm / bpm_confidence and key / key_confidence are the outputs of
advanced_bpm_detection and advanced_key_detection (none encodes
None / "Unknown"); the rest are the librosa-derived scalars. -/
structure Features where
  bpm : Option ℚ
  bpm_confidence : ℚ
  key : Option Key
  key_confidence : ℚ
  duration : ℚ
  spectral_centroid : ℚ
  spectral_rolloff : ℚ
  spectral_bandwidth : ℚ
  zero_crossing_rate : ℚ
  dynamic_range : ℚ
  mfcc_features : List ℚ
  sample_rate : ℤ

/-- The result dict of analyze_audio_features (lines 399-432). -/
structure AnalysisResult where
  bpm : Option ℚ
  bpm_confidence : ℚ
  key : Option Key
  key_confidence : ℚ
  duration : Option ℚ
  spectral_centroid : Option ℚ
  spectral_rolloff : Option ℚ
  spectral_bandwidth : Option ℚ
  zero_crossing_rate : Option ℚ
  dynamic_range : Option ℚ
  mfcc_features : Option (List ℚ)
  sample_rate : Option ℤ
  analysis_success : Bool
  error : Option String

/-- analyze_audio_features, lines 367-432, as a function of the outcome of
the decode / feature-extraction pipeline: the whole body is wrapped in one
try/except, so an exception anywhere (modelled as Except.error with the
exception's message str(e), possibly empty) is converted into the
success=False record of lines 417-432, and no exception escapes (the
function is total). On success the result dict of lines 399-413 is built,
with bpm_confidence replaced by 0.0 when bpm is falsy (None or 0.0). -/
def analyze_audio_features (input : Except String Features) : AnalysisResult :=
  match input with
  | Except.ok f =>
      { bpm := f.bpm
        bpm_confidence :=
          match f.bpm with
          | none => 0
          | some b => if b = 0 then 0 else f.bpm_confidence
        key := f.key
        key_confidence := f.key_confidence
        duration := some (round2 f.duration)
        spectral_centroid := some (round1 f.spectral_centroid)
        spectral_rolloff := some (round1 f.spectral_rolloff)
        spectral_bandwidth := some (round1 f.spectral_bandwidth)
        zero_crossing_rate := some (round4 f.zero_crossing_rate)
        dynamic_range := some (round4 f.dynamic_range)
        mfcc_features := some f.mfcc_features
        sample_rate := some f.sample_rate
        analysis_success := true
        error := none }
  | Except.error e =>
      { bpm := none
        bpm_confidence := 0
        key := none
        key_confidence := 0
        duration := none
        spectral_centroid := none
        spectral_rolloff := none
        spectral_bandwidth := none
        zero_crossing_rate := none
        dynamic_range := none
        mfcc_features := none
        sample_rate := none
        analysis_success := false
        error := some e }

/-! ## Helper lemmas -/

theorem round1_eq (q : ℚ) (n : ℤ) (h1 : (n : ℚ) ≤ 10 * q + 1/2)
    (h2 : 10 * q + 1/2 < (n : ℚ) + 1) : round1 q = (n : ℚ) / 10 := by
  unfold round1
  rw [Int.floor_eq_iff.mpr ⟨h1, h2⟩]

theorem round2_eq (q : ℚ) (n : ℤ) (h1 : (n : ℚ) ≤ 100 * q + 1/2)
    (h2 : 100 * q + 1/2 < (n : ℚ) + 1) : round2 q = (n : ℚ) / 100 := by
  unfold round2
  rw [Int.floor_eq_iff.mpr ⟨h1, h2⟩]

/-! ## Claims -/

/-- C10: the external-histogram tempo strategy reads only the fixed file
named "temp" (modelled by the environment parameter), so its candidate list
is identical for any two input waveforms: its outcome is an invariant of
the environment, never of the input. -/
theorem essentia_strategy_input_independent :
    ∀ (env : Option ℚ) (y : List ℚ) (sr : ℚ) (y2 : List ℚ) (sr2 : ℚ),
      essentia_strategy env y sr = essentia_strategy env y2 sr2 := by
  intro env y sr y2 sr2
  rfl

/-- C6: zero tempo candidates, or zero candidates surviving outlier
filtering, yield (none, 0.0); zero key candidates yield the "Unknown"
sentinel (none) with confidence 0.0 — never an error. -/
theorem empty_candidates_sentinels :
    bpm_aggregate [] = (none, 0) ∧ key_aggregate [] = (none, 0) ∧
    ∀ l : List (ℚ × ℚ), outlierStage l = [] → bpm_aggregate l = (none, 0) := by
  refine ⟨rfl, rfl, ?_⟩
  intro l h
  by_cases hl : l = []
  · subst hl; rfl
  · simp [bpm_aggregate, if_neg hl, h]

/-- C6 witness: the empty-filter case instantiated at the empty list. -/
theorem empty_candidates_sentinels_witness : bpm_aggregate [] = (none, 0) :=
  empty_candidates_sentinels.2.2 [] rfl

/-- C5 counterexample: an extraction failure whose exception message is the
empty string produces success=false with error equal to the empty string,
so the error field is not a non-empty string as claimed. -/
theorem analyze_empty_error_cex :
    (analyze_audio_features (Except.error "")).analysis_success = false ∧
    (analyze_audio_features (Except.error "")).error = some "" := by
  exact ⟨rfl, rfl⟩

/-- C5 (amended): analyze_audio_features is total (no exception escapes);
whenever it reports success=false all numeric fields are null/zero and the
error field is set (non-null) — it carries the caught exception's message
verbatim, which is empty exactly when that message is empty. -/
theorem analyze_failure_fields (input : Except String Features)
    (h : (analyze_audio_features input).analysis_success = false) :
    (analyze_audio_features input).bpm = none ∧
    (analyze_audio_features input).bpm_confidence = 0 ∧
    (analyze_audio_features input).key = none ∧
    (analyze_audio_features input).key_confidence = 0 ∧
    (analyze_audio_features input).duration = none ∧
    (analyze_audio_features input).spectral_centroid = none ∧
    (analyze_audio_features input).spectral_rolloff = none ∧
    (analyze_audio_features input).spectral_bandwidth = none ∧
    (analyze_audio_features input).zero_crossing_rate = none ∧
    (analyze_audio_features input).dynamic_range = none ∧
    (analyze_audio_features input).mfcc_features = none ∧
    (analyze_audio_features input).sample_rate = none ∧
    (analyze_audio_features input).error ≠ none ∧
    ∃ e, input = Except.error e ∧ (analyze_audio_features input).error = some e := by
  cases input with
  | ok f => simp [analyze_audio_features] at h
  | error e =>
      refine ⟨rfl, rfl, rfl, rfl, rfl, rfl, rfl, rfl, rfl, rfl, rfl, rfl, ?_, e, rfl, rfl⟩
      simp [analyze_audio_features]

/-- C5 witness: the amended failure-shape theorem at a concrete failing
input. -/
theorem analyze_failure_fields_witness :
    (analyze_audio_features (Except.error "boom")).bpm = none ∧
    (analyze_audio_features (Except.error "boom")).bpm_confidence = 0 ∧
    (analyze_audio_features (Except.error "boom")).key = none ∧
    (analyze_audio_features (Except.error "boom")).key_confidence = 0 ∧
    (analyze_audio_features (Except.error "boom")).duration = none ∧
    (analyze_audio_features (Except.error "boom")).spectral_centroid = none ∧
    (analyze_audio_features (Except.error "boom")).spectral_rolloff = none ∧
    (analyze_audio_features (Except.error "boom")).spectral_bandwidth = none ∧
    (analyze_audio_features (Except.error "boom")).zero_crossing_rate = none ∧
    (analyze_audio_features (Except.error "boom")).dynamic_range = none ∧
    (analyze_audio_features (Except.error "boom")).mfcc_features = none ∧
    (analyze_audio_features (Except.error "boom")).sample_rate = none ∧
    (analyze_audio_features (Except.error "boom")).error ≠ none ∧
    ∃ e, (Except.error "boom" : Except String Features) = Except.error e ∧
      (analyze_audio_features (Except.error "boom")).error = some e :=
  analyze_failure_fields (Except.error "boom") rfl

/-- C2: octave-error correction is applied exactly once after the weighted
average (the aggregate BPM component is round1 of one application of
octaveCorrect to the weighted average of the surviving candidates, the
confidence is round2 of the mean weight); values above 160 whose half lies
in [80, 140] are halved, values below 80 whose double lies in [120, 160]
are doubled, and otherwise the value is unchanged; in particular 170
corrects to 85 (so an aggregate of 170 always reaches the valid
alternative 85), and the aggregate of a single candidate 170 with weight
0.7 is (85.0, 0.7). -/
theorem octave_correction_once :
    octaveCorrect 170 = 85 ∧
    (∀ b : ℚ, 160 < b → ¬(80 ≤ b / 2 ∧ b / 2 ≤ 140) → octaveCorrect b = b) ∧
    (∀ b : ℚ, b < 80 → (120 ≤ b * 2 ∧ b * 2 ≤ 160) → octaveCorrect b = b * 2) ∧
    (∀ l : List (ℚ × ℚ), l ≠ [] → outlierStage l ≠ [] →
      bpm_aggregate l = (some (round1 (octaveCorrect (wavg (outlierStage l)))),
        round2 (listMean ((outlierStage l).map (fun c => c.2))))) ∧
    bpm_aggregate [(170, 7/10)] = (some 85, 7/10) := by
  refine ⟨by norm_num [octaveCorrect], ?_, ?_, ?_, ?_⟩
  · intro b hb hn
    rw [octaveCorrect, if_pos hb, if_neg hn]
  · intro b hb hc
    rw [octaveCorrect, if_neg (by linarith : ¬(160:ℚ) < b), if_pos hb, if_pos hc]
  · intro l h1 h2
    simp only [bpm_aggregate, if_neg h1, if_neg h2]
  · have h1 : wavg [((170:ℚ), (7/10:ℚ))] = 170 := by norm_num [wavg]
    have h2 : octaveCorrect (170:ℚ) = 85 := by norm_num [octaveCorrect]
    have h3 : round1 (85:ℚ) = 85 := by
      rw [round1_eq 85 850 (by norm_num) (by norm_num)]; norm_num
    have h4 : round2 ((7:ℚ)/10) = 7/10 := by
      rw [round2_eq _ 70 (by norm_num) (by norm_num)]; norm_num
    have h5 : outlierStage [((170:ℚ), (7/10:ℚ))] = [((170:ℚ), (7/10:ℚ))] := by
      norm_num [outlierStage]
    simp [bpm_aggregate, h5, h1, h2, h3, h4, listMean]

/-- C2 witness: the hypothesis-bearing parts of octave_correction_once at
concrete inputs: 290 exceeds 160 with no valid half and stays, 70 doubles
to 140, and a single-candidate list is aggregated by the
round-once-octave-correct formula. -/
theorem octave_correction_once_witness :
    octaveCorrect 290 = 290 ∧ octaveCorrect 70 = 70 * 2 ∧
    bpm_aggregate [(170, 7/10)] =
      (some (round1 (octaveCorrect (wavg (outlierStage [(170, 7/10)])))),
        round2 (listMean ((outlierStage [(170, 7/10)]).map (fun c => c.2)))) :=
  ⟨octave_correction_once.2.1 290 (by norm_num) (by norm_num),
   octave_correction_once.2.2.1 70 (by norm_num) (by norm_num),
   octave_correction_once.2.2.2.1 [(170, 7/10)] (by simp) (by norm_num [outlierStage])⟩

/-- C7: the onset-interval strategy contributes a candidate exactly when
more than 3 onset timestamps were detected and 60 divided by the median
inter-onset interval lies in [40, 200], and that candidate is the quotient
with weight 0.60; feeding the uniform 0.46875-second onset train (5
onsets) through this strategy alone aggregates to exactly (128.0, 0.60)
(within 1.0 of 128 BPM). -/
theorem onset_strategy_spec :
    (∀ onsets : List ℚ, onset_strategy onsets =
      if 3 < onsets.length ∧ 40 ≤ 60 / median (diffs onsets) ∧
          60 / median (diffs onsets) ≤ 200
      then [(60 / median (diffs onsets), 3/5)] else []) ∧
    onset_strategy [0, 15/32, 15/16, 45/32, 15/8] = [(128, 3/5)] ∧
    bpm_aggregate (onset_strategy [0, 15/32, 15/16, 45/32, 15/8]) =
      (some 128, 3/5) := by
  have hstep : onset_strategy [0, 15/32, 15/16, 45/32, 15/8] = [(128, 3/5)] := by
    norm_num [onset_strategy, diffs, median, List.insertionSort, List.orderedInsert]
  refine ⟨?_, hstep, ?_⟩
  · intro onsets
    by_cases h3 : 3 < onsets.length
    · have hl : (diffs onsets).length = min onsets.length onsets.tail.length := by
        rw [diffs, List.length_zipWith]
      have hd : 0 < (diffs onsets).length := by
        rw [hl, List.length_tail]
        omega
      simp only [onset_strategy, if_pos h3, if_pos hd, h3, true_and, if_true]
    · simp only [onset_strategy, if_neg h3, h3, false_and, if_false]
  · rw [hstep]
    have h1 : wavg [((128:ℚ), (3/5:ℚ))] = 128 := by norm_num [wavg]
    have h2 : octaveCorrect (128:ℚ) = 128 := by norm_num [octaveCorrect]
    have h3 : round1 (128:ℚ) = 128 := by
      rw [round1_eq 128 1280 (by norm_num) (by norm_num)]; norm_num
    have h4 : round2 ((3:ℚ)/5) = 3/5 := by
      rw [round2_eq _ 60 (by norm_num) (by norm_num)]; norm_num
    have h5 : outlierStage [((128:ℚ), (3/5:ℚ))] = [((128:ℚ), (3/5:ℚ))] := by
      norm_num [outlierStage]
    simp [bpm_aggregate, h5, h1, h2, h3, h4, listMean]

/-- C1 counterexample: the list [(100,.7), (100,.7), (120,.7), (1000,.7)]
has more than 2 candidates and exactly one extreme outlier (1000, more
than two population standard deviations from the median 110), yet the
aggregate differs from the aggregate of the list with the outlier removed:
re-running the aggregator on the reduced list recomputes median and
deviation on the reduced list and additionally drops the candidate 120,
giving (100.0, 0.7) instead of (106.7, 0.7). -/
theorem outlier_removal_rerun_cex :
    2 < ([((100:ℚ),(7/10:ℚ)), (100,7/10), (120,7/10), (1000,7/10)] : List (ℚ × ℚ)).length ∧
    4 * variance [100, 100, 120, 1000] < ((1000:ℚ) - median [100, 100, 120, 1000])^2 ∧
    ((100:ℚ) - median [100, 100, 120, 1000])^2 ≤ 4 * variance [100, 100, 120, 1000] ∧
    ((120:ℚ) - median [100, 100, 120, 1000])^2 ≤ 4 * variance [100, 100, 120, 1000] ∧
    bpm_aggregate [(100, 7/10), (100, 7/10), (120, 7/10), (1000, 7/10)] ≠
      bpm_aggregate [(100, 7/10), (100, 7/10), (120, 7/10)] := by
  have e4 : bpm_aggregate [(100, 7/10), (100, 7/10), (120, 7/10), (1000, 7/10)] =
      (some (1067/10), 7/10) := by
    have hout : outlierStage [((100:ℚ),(7/10:ℚ)), (100,7/10), (120,7/10), (1000,7/10)] =
        [((100:ℚ),(7/10:ℚ)), (100,7/10), (120,7/10)] := by
      norm_num [outlierStage, median, variance, listMean, List.insertionSort,
        List.orderedInsert, List.filter]
    have hw : wavg [((100:ℚ),(7/10:ℚ)), (100,7/10), (120,7/10)] = 320/3 := by
      norm_num [wavg]
    have hoc : octaveCorrect ((320:ℚ)/3) = 320/3 := by norm_num [octaveCorrect]
    have hr1 : round1 ((320:ℚ)/3) = 1067/10 := by
      rw [round1_eq _ 1067 (by norm_num) (by norm_num)]; norm_num
    have hr2 : round2 ((7:ℚ)/10) = 7/10 := by
      rw [round2_eq _ 70 (by norm_num) (by norm_num)]; norm_num
    have hm : listMean [(7:ℚ)/10, 7/10, 7/10] = 7/10 := by norm_num [listMean]
    simp [bpm_aggregate, hout, hw, hoc, hr1, hr2, hm]
  have e3 : bpm_aggregate [(100, 7/10), (100, 7/10), (120, 7/10)] =
      (some 100, 7/10) := by
    have hout : outlierStage [((100:ℚ),(7/10:ℚ)), (100,7/10), (120,7/10)] =
        [((100:ℚ),(7/10:ℚ)), (100,7/10)] := by
      norm_num [outlierStage, median, variance, listMean, List.insertionSort,
        List.orderedInsert, List.filter]
    have hw : wavg [((100:ℚ),(7/10:ℚ)), (100,7/10)] = 100 := by norm_num [wavg]
    have hoc : octaveCorrect (100:ℚ) = 100 := by norm_num [octaveCorrect]
    have hr1 : round1 (100:ℚ) = 100 := by
      rw [round1_eq _ 1000 (by norm_num) (by norm_num)]; norm_num
    have hr2 : round2 ((7:ℚ)/10) = 7/10 := by
      rw [round2_eq _ 70 (by norm_num) (by norm_num)]; norm_num
    have hm : listMean [(7:ℚ)/10, 7/10] = 7/10 := by norm_num [listMean]
    simp [bpm_aggregate, hout, hw, hoc, hr1, hr2, hm]
  refine ⟨by norm_num, ?_, ?_, ?_, ?_⟩
  · norm_num [median, variance, listMean, List.insertionSort, List.orderedInsert]
  · norm_num [median, variance, listMean, List.insertionSort, List.orderedInsert]
  · norm_num [median, variance, listMean, List.insertionSort, List.orderedInsert]
  · rw [e4, e3]
    norm_num

/-- C1 (amended): for more than 2 candidates the aggregator drops exactly
the candidates deviating from the median of values by more than twice the
population standard deviation and returns the weight-weighted average of
the surviving values with the unweighted mean of the surviving weights
(then octave correction and rounding); for a list with exactly one such
outlier the surviving set is exactly the list with the outlier removed, and
the aggregate equals the weighted-average formula evaluated on that
reduced set — not, in general, the result of re-running the whole
aggregator on the reduced list, which recomputes median and deviation and
may drop further candidates. -/
theorem outlier_removal_amended (l : List (ℚ × ℚ)) (c : ℚ × ℚ)
    (hlen : 2 < l.length) (_hmem : c ∈ l)
    (hout : 4 * variance (l.map (fun c => c.1)) <
      (c.1 - median (l.map (fun c => c.1)))^2)
    (hin : ∀ x ∈ l, x ≠ c →
      (x.1 - median (l.map (fun c => c.1)))^2 ≤ 4 * variance (l.map (fun c => c.1)))
    (hne : l.filter (fun x => decide (x ≠ c)) ≠ []) :
    outlierStage l = l.filter (fun x => decide (x ≠ c)) ∧
    bpm_aggregate l =
      (some (round1 (octaveCorrect (wavg (l.filter (fun x => decide (x ≠ c)))))),
       round2 (listMean ((l.filter (fun x => decide (x ≠ c))).map (fun c => c.2)))) := by
  have hfil : outlierStage l = l.filter (fun x => decide (x ≠ c)) := by
    rw [outlierStage, if_pos hlen]
    apply List.filter_congr
    intro x hx
    rw [decide_eq_decide]
    constructor
    · intro h hxc
      rw [hxc] at h
      exact absurd h (not_le.mpr hout)
    · intro h
      exact hin x hx h
  have hl : l ≠ [] := by
    intro h
    rw [h] at hlen
    simp at hlen
  refine ⟨hfil, ?_⟩
  simp only [bpm_aggregate, if_neg hl, hfil, if_neg hne]

/-- C1 witness: the amended outlier-removal theorem at the concrete
one-outlier list of the counterexample. -/
theorem outlier_removal_amended_witness :
    outlierStage [((100:ℚ),(7/10:ℚ)), (100,7/10), (120,7/10), (1000,7/10)] =
      [((100:ℚ),(7/10:ℚ)), (100,7/10), (120,7/10), (1000,7/10)].filter
        (fun x => decide (x ≠ ((1000:ℚ),(7/10:ℚ)))) ∧
    bpm_aggregate [((100:ℚ),(7/10:ℚ)), (100,7/10), (120,7/10), (1000,7/10)] =
      (some (round1 (octaveCorrect (wavg
        ([((100:ℚ),(7/10:ℚ)), (100,7/10), (120,7/10), (1000,7/10)].filter
          (fun x => decide (x ≠ ((1000:ℚ),(7/10:ℚ)))))))),
       round2 (listMean (([((100:ℚ),(7/10:ℚ)), (100,7/10), (120,7/10), (1000,7/10)].filter
          (fun x => decide (x ≠ ((1000:ℚ),(7/10:ℚ))))).map (fun c => c.2)))) := by
  apply outlier_removal_amended
  · norm_num
  · norm_num
  · norm_num [median, variance, listMean, List.insertionSort, List.orderedInsert]
  · intro x hx hxc
    simp only [List.mem_cons, List.not_mem_nil, or_false] at hx
    rcases hx with h | h | h | h
    · rw [h]
      norm_num [median, variance, listMean, List.insertionSort, List.orderedInsert]
    · rw [h]
      norm_num [median, variance, listMean, List.insertionSort, List.orderedInsert]
    · rw [h]
      norm_num [median, variance, listMean, List.insertionSort, List.orderedInsert]
    · exact absurd h hxc
  · intro h
    norm_num [List.filter] at h
    exact List.cons_ne_nil _ _ h

theorem slotScore_nil (k : Key) : slotScore [] k = 0 := rfl

theorem slotScore_cons (e : Key × ℚ) (l : List (Key × ℚ)) (k : Key) :
    slotScore (e :: l) k = (if e.1 = k then e.2 else 0) + slotScore l k := by
  by_cases h : e.1 = k
  · simp [slotScore, List.filter_cons, h]
  · simp [slotScore, List.filter_cons, h]

theorem slotScore_append (l1 l2 : List (Key × ℚ)) (k : Key) :
    slotScore (l1 ++ l2) k = slotScore l1 k + slotScore l2 k := by
  simp [slotScore, List.filter_append]

theorem slotScore_perm {l1 l2 : List (Key × ℚ)} (h : l1.Perm l2) (k : Key) :
    slotScore l1 k = slotScore l2 k := by
  unfold slotScore
  exact ((h.filter _).map _).sum_eq

theorem updateAssoc_keys (d : List (Key × ℚ)) (k : Key) (s : ℚ) :
    (updateAssoc d k s).map Prod.fst =
      if k ∈ d.map Prod.fst then d.map Prod.fst else d.map Prod.fst ++ [k] := by
  induction d with
  | nil => simp [updateAssoc]
  | cons e t ih =>
    obtain ⟨k0, s0⟩ := e
    by_cases h : k0 = k
    · subst h
      simp [updateAssoc]
    · have hne : ¬ k = k0 := fun hh => h hh.symm
      simp only [updateAssoc, if_neg h, List.map_cons]
      rw [ih]
      by_cases hk : k ∈ t.map Prod.fst
      · simp [List.mem_cons, hk, hne]
      · simp [List.mem_cons, hk, hne]

theorem updateAssoc_slotScore (d : List (Key × ℚ)) (k : Key) (s : ℚ) (k' : Key) :
    slotScore (updateAssoc d k s) k' = slotScore d k' + if k = k' then s else 0 := by
  induction d with
  | nil => simp [updateAssoc, slotScore_cons, slotScore_nil]
  | cons e t ih =>
    obtain ⟨k0, s0⟩ := e
    by_cases h : k0 = k
    · subst h
      by_cases h2 : k0 = k'
      · simp [updateAssoc, slotScore_cons, h2]
        ring
      · simp [updateAssoc, slotScore_cons, h2]
    · simp [updateAssoc, h, slotScore_cons, ih]
      ring

theorem foldl_update_slotScore (l : List (Key × ℚ)) :
    ∀ (d : List (Key × ℚ)) (k : Key),
      slotScore (l.foldl (fun d e => updateAssoc d e.1 e.2) d) k =
        slotScore d k + slotScore l k := by
  induction l with
  | nil =>
    intro d k
    simp [slotScore_nil]
  | cons e t ih =>
    intro d k
    rw [List.foldl_cons, ih, updateAssoc_slotScore, slotScore_cons]
    by_cases h : e.1 = k
    · simp [h]
      ring
    · simp [h]

theorem aggregateScores_slotScore (l : List (Key × ℚ)) (k : Key) :
    slotScore (aggregateScores l) k = slotScore l k := by
  rw [aggregateScores, foldl_update_slotScore]
  simp [slotScore_nil]

theorem foldl_update_keys_mem (l : List (Key × ℚ)) :
    ∀ (d : List (Key × ℚ)) (k : Key),
      (k ∈ (l.foldl (fun d e => updateAssoc d e.1 e.2) d).map Prod.fst) ↔
        k ∈ d.map Prod.fst ∨ k ∈ l.map Prod.fst := by
  induction l with
  | nil =>
    intro d k
    simp
  | cons e t ih =>
    intro d k
    rw [List.foldl_cons, ih, updateAssoc_keys]
    by_cases h : e.1 ∈ d.map Prod.fst
    · rw [if_pos h]
      simp only [List.map_cons, List.mem_cons]
      constructor
      · rintro (hh | hh)
        · exact Or.inl hh
        · exact Or.inr (Or.inr hh)
      · rintro (hh | hh | hh)
        · exact Or.inl hh
        · exact Or.inl (hh ▸ h)
        · exact Or.inr hh
    · rw [if_neg h]
      simp only [List.mem_append, List.mem_singleton, List.map_cons, List.mem_cons]
      tauto

theorem aggregateScores_keys_mem (l : List (Key × ℚ)) (k : Key) :
    k ∈ (aggregateScores l).map Prod.fst ↔ k ∈ l.map Prod.fst := by
  rw [aggregateScores, foldl_update_keys_mem]
  simp

theorem updateAssoc_nodup (d : List (Key × ℚ)) (k : Key) (s : ℚ)
    (h : (d.map Prod.fst).Nodup) : ((updateAssoc d k s).map Prod.fst).Nodup := by
  rw [updateAssoc_keys]
  by_cases hk : k ∈ d.map Prod.fst
  · simp [hk, h]
  · rw [if_neg hk, List.nodup_append]
    exact ⟨h, List.nodup_singleton _, by simp [List.disjoint_singleton, hk]⟩

theorem foldl_update_nodup (l : List (Key × ℚ)) :
    ∀ d : List (Key × ℚ), (d.map Prod.fst).Nodup →
      ((l.foldl (fun d e => updateAssoc d e.1 e.2) d).map Prod.fst).Nodup := by
  induction l with
  | nil =>
    intro d h
    simpa using h
  | cons e t ih =>
    intro d h
    rw [List.foldl_cons]
    exact ih _ (updateAssoc_nodup d e.1 e.2 h)

theorem aggregateScores_nodup (l : List (Key × ℚ)) :
    ((aggregateScores l).map Prod.fst).Nodup :=
  foldl_update_nodup l [] (by simp)

theorem filter_fst_eq_singleton {d : List (Key × ℚ)} {e : Key × ℚ}
    (hnd : (d.map Prod.fst).Nodup) (he : e ∈ d) :
    d.filter (fun x => decide (x.1 = e.1)) = [e] := by
  induction d with
  | nil => exact absurd he (List.not_mem_nil e)
  | cons a t ih =>
    rw [List.map_cons, List.nodup_cons] at hnd
    rcases List.mem_cons.mp he with rfl | he2
    · rw [List.filter_cons, if_pos (by simp)]
      have ht : t.filter (fun x => decide (x.1 = e.1)) = [] := by
        rw [List.filter_eq_nil_iff]
        intro x hx
        simp only [decide_eq_true_eq]
        intro hc
        exact hnd.1 (hc ▸ List.mem_map_of_mem Prod.fst hx)
      rw [ht]
    · have hne : ¬ a.1 = e.1 := by
        intro hc
        exact hnd.1 (hc ▸ List.mem_map_of_mem Prod.fst he2)
      rw [List.filter_cons, if_neg (by simpa using hne)]
      exact ih hnd.2 he2

theorem entry_snd_eq_slotScore (l : List (Key × ℚ)) (e : Key × ℚ)
    (he : e ∈ aggregateScores l) : e.2 = slotScore l e.1 := by
  have hfil := filter_fst_eq_singleton (aggregateScores_nodup l) he
  have h1 : slotScore (aggregateScores l) e.1 = e.2 := by
    rw [slotScore, hfil]
    simp
  rw [← h1, aggregateScores_slotScore]

theorem foldl_max_spec (es : List (Key × ℚ)) :
    ∀ a : Key × ℚ,
      (es.foldl (fun acc x => if acc.2 < x.2 then x else acc) a = a ∨
        es.foldl (fun acc x => if acc.2 < x.2 then x else acc) a ∈ es) ∧
      (∀ x ∈ es, x.2 ≤ (es.foldl (fun acc x => if acc.2 < x.2 then x else acc) a).2) ∧
      a.2 ≤ (es.foldl (fun acc x => if acc.2 < x.2 then x else acc) a).2 := by
  induction es with
  | nil =>
    intro a
    simp
  | cons e t ih =>
    intro a
    rw [List.foldl_cons]
    obtain ⟨h1, h2, h3⟩ := ih (if a.2 < e.2 then e else a)
    refine ⟨?_, ?_, ?_⟩
    · rcases h1 with h | h
      · rw [h]
        by_cases hc : a.2 < e.2
        · rw [if_pos hc]
          exact Or.inr (List.mem_cons_self e t)
        · rw [if_neg hc]
          exact Or.inl rfl
      · exact Or.inr (List.mem_cons_of_mem e h)
    · intro x hx
      rcases List.mem_cons.mp hx with rfl | hx2
      · refine le_trans ?_ h3
        by_cases hc : a.2 < x.2
        · rw [if_pos hc]
        · rw [if_neg hc]
          exact le_of_not_lt hc
      · exact h2 x hx2
    · refine le_trans ?_ h3
      by_cases hc : a.2 < e.2
      · rw [if_pos hc]
        exact le_of_lt hc
      · rw [if_neg hc]

theorem pythonMax_spec (l : List (Key × ℚ)) (hl : l ≠ []) :
    ∃ e, pythonMax l = some e ∧ e ∈ l ∧ ∀ x ∈ l, x.2 ≤ e.2 := by
  match l with
  | e :: es =>
    obtain ⟨h1, h2, h3⟩ := foldl_max_spec es e
    refine ⟨_, rfl, ?_, ?_⟩
    · rcases h1 with h | h
      · rw [h]
        exact List.mem_cons_self e es
      · exact List.mem_cons_of_mem e h
    · intro x hx
      rcases List.mem_cons.mp hx with rfl | hx2
      · exact h3
      · exact h2 x hx2

theorem key_aggregate_unique_max (l : List (Key × ℚ)) (k : Key)
    (hk : k ∈ l.map Prod.fst)
    (huniq : ∀ k' ∈ l.map Prod.fst, k' ≠ k → slotScore l k' < slotScore l k) :
    key_aggregate l = (some k, round2 (min 1 (max 0 (slotScore l k)))) := by
  have hl : l ≠ [] := by
    intro h
    subst h
    simp at hk
  have hagg_ne : aggregateScores l ≠ [] := by
    intro h
    have hmm := (aggregateScores_keys_mem l k).mpr hk
    rw [h] at hmm
    simp at hmm
  obtain ⟨e, hpm, hmem, hmax⟩ := pythonMax_spec (aggregateScores l) hagg_ne
  obtain ⟨k1, s1⟩ := e
  have he2 : s1 = slotScore l k1 := entry_snd_eq_slotScore l (k1, s1) hmem
  have he1 : k1 ∈ l.map Prod.fst :=
    (aggregateScores_keys_mem l k1).mp (List.mem_map_of_mem Prod.fst hmem)
  obtain ⟨ek, hekmem, hek1⟩ : ∃ ek ∈ aggregateScores l, ek.1 = k := by
    have hmm := (aggregateScores_keys_mem l k).mpr hk
    obtain ⟨ek, hm, h1⟩ := List.mem_map.mp hmm
    exact ⟨ek, hm, h1⟩
  have hek2 : ek.2 = slotScore l k := by
    rw [entry_snd_eq_slotScore l ek hekmem, hek1]
  have hee : k1 = k := by
    by_contra hne
    have hlt := huniq k1 he1 hne
    have hle := hmax ek hekmem
    rw [hek2] at hle
    rw [he2] at hle
    exact absurd hlt (not_lt.mpr hle)
  rw [key_aggregate, if_neg hl, hpm]
  rw [hee] at he2
  rw [hee, he2]

theorem median_perm {l1 l2 : List ℚ} (h : l1.Perm l2) : median l1 = median l2 := by
  have hs : l1.insertionSort (· ≤ ·) = l2.insertionSort (· ≤ ·) :=
    List.eq_of_perm_of_sorted
      ((List.perm_insertionSort _ l1).trans (h.trans (List.perm_insertionSort _ l2).symm))
      (List.sorted_insertionSort _ l1) (List.sorted_insertionSort _ l2)
  unfold median
  rw [hs, h.length_eq]

theorem listMean_perm {l1 l2 : List ℚ} (h : l1.Perm l2) : listMean l1 = listMean l2 := by
  unfold listMean
  rw [h.sum_eq, h.length_eq]

theorem variance_perm {l1 l2 : List ℚ} (h : l1.Perm l2) : variance l1 = variance l2 := by
  have hm := listMean_perm h
  unfold variance
  rw [hm, h.length_eq, (h.map (fun x => (x - listMean l2)^2)).sum_eq]

theorem outlierStage_perm {l1 l2 : List (ℚ × ℚ)} (h : l1.Perm l2) :
    (outlierStage l1).Perm (outlierStage l2) := by
  have hmap : (l1.map (fun c => c.1)).Perm (l2.map (fun c => c.1)) := h.map _
  have hmed := median_perm hmap
  have hvar := variance_perm hmap
  unfold outlierStage
  rw [h.length_eq, hmed, hvar]
  by_cases hc : 2 < l2.length
  · rw [if_pos hc, if_pos hc]
    exact h.filter _
  · rw [if_neg hc, if_neg hc]
    exact h

theorem wavg_perm {l1 l2 : List (ℚ × ℚ)} (h : l1.Perm l2) : wavg l1 = wavg l2 := by
  unfold wavg
  rw [(h.map (fun c => c.1 * c.2)).sum_eq, (h.map (fun c => c.2)).sum_eq]

theorem bpm_aggregate_perm {l1 l2 : List (ℚ × ℚ)} (h : l1.Perm l2) :
    bpm_aggregate l1 = bpm_aggregate l2 := by
  by_cases h1 : l1 = []
  · subst h1
    have h2 : l2 = [] := h.symm.eq_nil
    subst h2
    rfl
  · have h2 : l2 ≠ [] := fun hh => h1 ((hh ▸ h).eq_nil)
    have hop := outlierStage_perm h
    by_cases ho1 : outlierStage l1 = []
    · have ho2 : outlierStage l2 = [] := by
        have hlen := hop.length_eq
        rw [ho1] at hlen
        exact List.length_eq_zero.mp hlen.symm
      rw [bpm_aggregate, bpm_aggregate, if_neg h1, if_neg h2]
      simp only [ho1, ho2, if_pos rfl]
    · have ho2 : outlierStage l2 ≠ [] := by
        intro hh
        apply ho1
        apply List.length_eq_zero.mp
        rw [hop.length_eq, hh]
        rfl
      rw [bpm_aggregate, bpm_aggregate, if_neg h1, if_neg h2]
      simp only [if_neg ho1, if_neg ho2]
      rw [wavg_perm hop, listMean_perm (hop.map (fun c => c.2))]

/-- C3 counterexample: two slots (D major and C major) hold the equal
maximal accumulated score 1/2, but with the D-major candidate occurring
first the aggregator selects D major (pitch class 2), not the lowest pitch
class C major (pitch class 0): the tie is broken by candidate order, not by
ascending pitch class. -/
theorem key_tie_break_cex :
    slotScore [(((2:Fin 12), Mode.major), (1:ℚ)/2), (((0:Fin 12), Mode.major), 1/2)]
        ((2:Fin 12), Mode.major) =
      slotScore [(((2:Fin 12), Mode.major), (1:ℚ)/2), (((0:Fin 12), Mode.major), 1/2)]
        ((0:Fin 12), Mode.major) ∧
    ([(((2:Fin 12), Mode.major), (1:ℚ)/2), (((0:Fin 12), Mode.major), 1/2)].map
        Prod.fst) = [((2:Fin 12), Mode.major), ((0:Fin 12), Mode.major)] ∧
    (key_aggregate [(((2:Fin 12), Mode.major), (1:ℚ)/2),
        (((0:Fin 12), Mode.major), 1/2)]).1 = some ((2:Fin 12), Mode.major) ∧
    (key_aggregate [(((2:Fin 12), Mode.major), (1:ℚ)/2),
        (((0:Fin 12), Mode.major), 1/2)]).1 ≠ some ((0:Fin 12), Mode.major) := by
  have p20 : ¬ ((2:Fin 12) = 0) := by decide
  have p02 : ¬ ((0:Fin 12) = 2) := by decide
  refine ⟨?_, rfl, ?_, ?_⟩
  · norm_num [slotScore, List.filter, p20, p02]
  · rw [key_aggregate, if_neg (List.cons_ne_nil _ _)]
    norm_num [aggregateScores, updateAssoc, pythonMax, List.foldl, p20, p02]
  · rw [key_aggregate, if_neg (List.cons_ne_nil _ _)]
    norm_num [aggregateScores, updateAssoc, pythonMax, List.foldl, p20, p02]

/-- C3 (amended): the key aggregator always selects a slot attaining the
maximal accumulated score, but a tie between equal maximal slots is broken
by candidate order (the first slot reaching the maximum in insertion
order), not intrinsically by pitch-class index: when the tied slots occur
in ascending pitch class with major before minor — the order in which the
chroma strategies emit candidates — the lowest pitch class wins and major
is preferred over minor at equal pitch class, as on the two concrete tie
instances below; a reversed occurrence order selects the other slot
(see the counterexample). -/
theorem key_tie_break_amended :
    (∀ (l : List (Key × ℚ)) (k' : Key), k' ∈ l.map Prod.fst →
      ∃ k, (key_aggregate l).1 = some k ∧ k ∈ l.map Prod.fst ∧
        slotScore l k' ≤ slotScore l k) ∧
    (key_aggregate [(((0:Fin 12), Mode.major), (1:ℚ)/2),
        (((2:Fin 12), Mode.major), 1/2)]).1 = some ((0:Fin 12), Mode.major) ∧
    (key_aggregate [(((0:Fin 12), Mode.major), (1:ℚ)/2),
        (((0:Fin 12), Mode.minor), 1/2)]).1 = some ((0:Fin 12), Mode.major) := by
  refine ⟨?_, ?_, ?_⟩
  · intro l k' hk'
    have hl : l ≠ [] := by
      intro h
      subst h
      simp at hk'
    have hagg_ne : aggregateScores l ≠ [] := by
      intro h
      have hmm := (aggregateScores_keys_mem l k').mpr hk'
      rw [h] at hmm
      simp at hmm
    obtain ⟨e, hpm, hmem, hmax⟩ := pythonMax_spec (aggregateScores l) hagg_ne
    obtain ⟨k1, s1⟩ := e
    refine ⟨k1, ?_, ?_, ?_⟩
    · rw [key_aggregate, if_neg hl, hpm]
    · exact (aggregateScores_keys_mem l k1).mp (List.mem_map_of_mem Prod.fst hmem)
    · obtain ⟨ek, hekmem, hek1⟩ : ∃ ek ∈ aggregateScores l, ek.1 = k' := by
        have hmm := (aggregateScores_keys_mem l k').mpr hk'
        obtain ⟨ek, hm, h1⟩ := List.mem_map.mp hmm
        exact ⟨ek, hm, h1⟩
      have h1 : ek.2 = slotScore l k' := by
        rw [entry_snd_eq_slotScore l ek hekmem, hek1]
      have h2 : s1 = slotScore l k1 := entry_snd_eq_slotScore l (k1, s1) hmem
      have h3 := hmax ek hekmem
      rw [h1, h2] at h3
      exact h3
  · have p02 : ¬ ((0:Fin 12) = 2) := by decide
    have p20 : ¬ ((2:Fin 12) = 0) := by decide
    rw [key_aggregate, if_neg (List.cons_ne_nil _ _)]
    norm_num [aggregateScores, updateAssoc, pythonMax, List.foldl, p02, p20]
  · have pmm : ¬ (Mode.major = Mode.minor) := by decide
    have pmj : ¬ (((0:Fin 12), Mode.major) : Key) = ((0:Fin 12), Mode.minor) := by decide
    have pjm : ¬ (((0:Fin 12), Mode.minor) : Key) = ((0:Fin 12), Mode.major) := by decide
    rw [key_aggregate, if_neg (List.cons_ne_nil _ _)]
    norm_num [aggregateScores, updateAssoc, pythonMax, List.foldl, pmm, pmj, pjm]

/-- C3 witness: the attains-the-maximum statement instantiated on a
concrete singleton candidate list. -/
theorem key_tie_break_amended_witness :
    ∃ k, (key_aggregate [(((5:Fin 12), Mode.minor), (3:ℚ)/4)]).1 = some k ∧
      k ∈ [(((5:Fin 12), Mode.minor), (3:ℚ)/4)].map Prod.fst ∧
      slotScore [(((5:Fin 12), Mode.minor), (3:ℚ)/4)] ((5:Fin 12), Mode.minor) ≤
        slotScore [(((5:Fin 12), Mode.minor), (3:ℚ)/4)] k :=
  key_tie_break_amended.1 [(((5:Fin 12), Mode.minor), (3:ℚ)/4)]
    ((5:Fin 12), Mode.minor) (by simp)

/-- C4 counterexample: the aggregated key result is not invariant under
permutation of the candidate list: swapping two candidates whose slots tie
at the maximal accumulated score changes the selected key (C major for one
order, D major for the other). -/
theorem aggregation_perm_cex :
    List.Perm [(((0:Fin 12), Mode.major), (1:ℚ)/2), (((2:Fin 12), Mode.major), 1/2)]
      [(((2:Fin 12), Mode.major), (1:ℚ)/2), (((0:Fin 12), Mode.major), 1/2)] ∧
    key_aggregate [(((0:Fin 12), Mode.major), (1:ℚ)/2), (((2:Fin 12), Mode.major), 1/2)] ≠
      key_aggregate [(((2:Fin 12), Mode.major), (1:ℚ)/2), (((0:Fin 12), Mode.major), 1/2)] := by
  constructor
  · exact List.Perm.swap _ _ _
  · have p02 : ¬ ((0:Fin 12) = 2) := by decide
    have p20 : ¬ ((2:Fin 12) = 0) := by decide
    rw [key_aggregate, key_aggregate, if_neg (List.cons_ne_nil _ _),
      if_neg (List.cons_ne_nil _ _)]
    norm_num [aggregateScores, updateAssoc, pythonMax, List.foldl, p02, p20]

/-- C4 (amended): the tempo aggregate is invariant under any permutation of
the candidate list (median, variance, outlier filtering, weighted average
and mean weight are all order-independent); the key aggregate is invariant
under permutation whenever one slot's accumulated score strictly exceeds
every other slot's (no tie at the maximum) — with a tie, the selected key
can depend on candidate order (see the counterexample). -/
theorem aggregation_perm_amended :
    (∀ l1 l2 : List (ℚ × ℚ), l1.Perm l2 → bpm_aggregate l1 = bpm_aggregate l2) ∧
    (∀ (l1 l2 : List (Key × ℚ)) (k : Key), l1.Perm l2 → k ∈ l1.map Prod.fst →
      (∀ k' ∈ l1.map Prod.fst, k' ≠ k → slotScore l1 k' < slotScore l1 k) →
      key_aggregate l1 = key_aggregate l2) := by
  constructor
  · intro l1 l2 h
    exact bpm_aggregate_perm h
  · intro l1 l2 k h hk huniq
    have hk2 : k ∈ l2.map Prod.fst := (h.map Prod.fst).mem_iff.mp hk
    have huniq2 : ∀ k' ∈ l2.map Prod.fst, k' ≠ k → slotScore l2 k' < slotScore l2 k := by
      intro k' hk' hne
      rw [← slotScore_perm h k', ← slotScore_perm h k]
      exact huniq k' ((h.map Prod.fst).mem_iff.mpr hk') hne
    rw [key_aggregate_unique_max l1 k hk huniq, key_aggregate_unique_max l2 k hk2 huniq2,
      slotScore_perm h k]

/-- C4 witness: permutation invariance at concrete inputs — a swapped
two-candidate tempo list, and a swapped key list whose maximal slot is
unique. -/
theorem aggregation_perm_amended_witness :
    bpm_aggregate [((100:ℚ), (1:ℚ)/2), ((120:ℚ), 1/2)] =
      bpm_aggregate [((120:ℚ), (1:ℚ)/2), ((100:ℚ), 1/2)] ∧
    key_aggregate [(((0:Fin 12), Mode.major), (1:ℚ)), (((1:Fin 12), Mode.minor), 1/2)] =
      key_aggregate [(((1:Fin 12), Mode.minor), (1:ℚ)/2), (((0:Fin 12), Mode.major), 1)] := by
  constructor
  · exact aggregation_perm_amended.1 _ _ (List.Perm.swap _ _ _)
  · apply aggregation_perm_amended.2 _ _ ((0:Fin 12), Mode.major) (List.Perm.swap _ _ _)
      (by simp)
    intro k' hk' hne
    have pq : ¬ (((1:Fin 12), Mode.minor) : Key) = ((0:Fin 12), Mode.major) := by decide
    have pqr : ¬ (((0:Fin 12), Mode.major) : Key) = ((1:Fin 12), Mode.minor) := by decide
    simp only [List.map_cons, List.map_nil, List.mem_cons, List.not_mem_nil, or_false] at hk'
    rcases hk' with h | h
    · exact absurd h hne
    · rw [h]
      norm_num [slotScore, List.filter, pq, pqr]

theorem round2_mem_unit (q : ℚ) (h0 : 0 ≤ q) (h1 : q ≤ 1) :
    0 ≤ round2 q ∧ round2 q ≤ 1 := by
  unfold round2
  constructor
  · apply div_nonneg _ (by norm_num)
    have h : (0:ℤ) ≤ ⌊100 * q + 1/2⌋ := by
      rw [Int.le_floor]
      push_cast
      linarith
    exact_mod_cast h
  · rw [div_le_one (by norm_num)]
    have h : ⌊100 * q + 1/2⌋ ≤ (100:ℤ) := by
      have : (100 * q + 1/2 : ℚ) ≤ (100:ℤ) + 1/2 := by push_cast; linarith
      calc ⌊100 * q + 1/2⌋ ≤ ⌊((100:ℤ) : ℚ) + 1/2⌋ := Int.floor_le_floor this
        _ = 100 := by
          rw [Int.floor_int_add]
          norm_num
    exact_mod_cast h

theorem outlierStage_subset {l : List (ℚ × ℚ)} {x : ℚ × ℚ}
    (h : x ∈ outlierStage l) : x ∈ l := by
  unfold outlierStage at h
  by_cases hc : 2 < l.length
  · rw [if_pos hc] at h
    exact List.mem_of_mem_filter h
  · rwa [if_neg hc] at h

/-- C9: all returned confidences lie in [0, 1]: the key confidence is the
clamp of the best accumulated score to [0, 1] rounded to 2 decimals, hence
always in [0, 1]; the tempo confidence is the rounded arithmetic mean of
the surviving per-strategy weights, hence in [0, 1] whenever every
candidate weight is (as every weight emitted by the strategies — 0.6,
0.65, 0.7, 0.75, 0.8 — is). -/
theorem confidence_in_unit_interval :
    (∀ kl : List (Key × ℚ), 0 ≤ (key_aggregate kl).2 ∧ (key_aggregate kl).2 ≤ 1) ∧
    (∀ tl : List (ℚ × ℚ), (∀ c ∈ tl, 0 ≤ c.2 ∧ c.2 ≤ 1) →
      0 ≤ (bpm_aggregate tl).2 ∧ (bpm_aggregate tl).2 ≤ 1) := by
  constructor
  · intro kl
    by_cases hkl : kl = []
    · subst hkl
      rw [show key_aggregate [] = ((none : Option Key), (0:ℚ)) from rfl]
      norm_num
    · rw [key_aggregate, if_neg hkl]
      cases hpm : pythonMax (aggregateScores kl) with
      | none => exact ⟨le_refl 0, by norm_num⟩
      | some e =>
        obtain ⟨k, s⟩ := e
        have hlo : (0:ℚ) ≤ min 1 (max 0 s) := le_min (by norm_num) (le_max_left 0 s)
        have hhi : min (1:ℚ) (max 0 s) ≤ 1 := min_le_left 1 (max 0 s)
        exact round2_mem_unit _ hlo hhi
  · intro tl h
    by_cases h1 : tl = []
    · subst h1
      rw [show bpm_aggregate [] = ((none : Option ℚ), (0:ℚ)) from rfl]
      norm_num
    · by_cases h2 : outlierStage tl = []
      · rw [bpm_aggregate, if_neg h1]
        simp only [h2, if_pos rfl]
        exact ⟨le_refl 0, by norm_num⟩
      · rw [bpm_aggregate, if_neg h1]
        simp only [if_neg h2]
        have hlenpos : 0 < (outlierStage tl).length := by
          cases hh : outlierStage tl with
          | nil => exact absurd hh h2
          | cons a t => simp [hh]
        have hw : ∀ w ∈ (outlierStage tl).map (fun c => c.2), 0 ≤ w ∧ w ≤ 1 := by
          intro w hwmem
          obtain ⟨c, hc, hcw⟩ := List.mem_map.mp hwmem
          rw [← hcw]
          exact h c (outlierStage_subset hc)
        have hsum0 : 0 ≤ ((outlierStage tl).map (fun c => c.2)).sum :=
          List.sum_nonneg (fun w hwmem => (hw w hwmem).1)
        have hsum1 : ((outlierStage tl).map (fun c => c.2)).sum ≤
            (((outlierStage tl).map (fun c => c.2)).length : ℚ) := by
          have := List.sum_le_card_nsmul ((outlierStage tl).map (fun c => c.2)) 1
            (fun w hwmem => (hw w hwmem).2)
          simpa using this
        have hlen2 : (0:ℚ) < (((outlierStage tl).map (fun c => c.2)).length : ℚ) := by
          simp only [List.length_map]
          exact_mod_cast hlenpos
        have hmean0 : 0 ≤ listMean ((outlierStage tl).map (fun c => c.2)) :=
          div_nonneg hsum0 (le_of_lt hlen2)
        have hmean1 : listMean ((outlierStage tl).map (fun c => c.2)) ≤ 1 := by
          rw [listMean, div_le_one hlen2]
          exact hsum1
        exact round2_mem_unit _ hmean0 hmean1

/-- C9 witness: the tempo-confidence bound at a concrete candidate list
with weights in [0, 1]. -/
theorem confidence_in_unit_interval_witness :
    0 ≤ (bpm_aggregate [((128:ℚ), (3:ℚ)/5)]).2 ∧
      (bpm_aggregate [((128:ℚ), (3:ℚ)/5)]).2 ≤ 1 :=
  confidence_in_unit_interval.2 [((128:ℚ), (3:ℚ)/5)]
    (by intro c hc; simp at hc; rw [hc]; norm_num)

theorem isum_roll_imaj : ∀ k : Fin 12, isum (irolli imaj k) = 4179 := by decide

theorem isum_roll_imin : ∀ i : Fin 12, isum (irolli imin i) = 4451 := by decide

theorem ivar_roll_imaj_pos : ∀ k : Fin 12, 0 < icov (irolli imaj k) (irolli imaj k) := by
  decide

theorem ivar_roll_imin_pos : ∀ i : Fin 12, 0 < icov (irolli imin i) (irolli imin i) := by
  decide

/-- Strict integer Cauchy-Schwarz between distinct rotations of the major
profile: no two distinct rotations are perfectly correlated. -/
theorem icov_maj_maj_strict : ∀ k i : Fin 12, i ≠ k →
    (icov (irolli imaj k) (irolli imaj i))^2 <
      icov (irolli imaj k) (irolli imaj k) * icov (irolli imaj i) (irolli imaj i) := by
  decide

/-- Strict integer Cauchy-Schwarz between any rotation of the major profile
and any rotation of the minor profile. -/
theorem icov_maj_min_strict : ∀ k i : Fin 12,
    (icov (irolli imaj k) (irolli imin i))^2 <
      icov (irolli imaj k) (irolli imaj k) * icov (irolli imin i) (irolli imin i) := by
  decide

theorem sum_map_intdiv (L : List (Fin 12)) (x : Fin 12 → ℤ) (a : ℚ) :
    (L.map (fun j => (x j : ℚ) / a)).sum = ((L.map x).sum : ℚ) / a := by
  induction L with
  | nil => simp
  | cons h t ih =>
    simp only [List.map_cons, List.sum_cons, ih]
    push_cast
    ring

theorem sum_map_intdiv2 (L : List (Fin 12)) (x y : Fin 12 → ℤ) (a b : ℚ) :
    (L.map (fun j => ((x j : ℚ) / a) * ((y j : ℚ) / b))).sum =
      ((L.map (fun j => x j * y j)).sum : ℚ) / (a * b) := by
  induction L with
  | nil => simp
  | cons h t ih =>
    simp only [List.map_cons, List.sum_cons, ih]
    push_cast
    ring

theorem vsum_iscale (x : Fin 12 → ℤ) (a : ℚ) : vsum (iscale a x) = (isum x : ℚ) / a := by
  unfold vsum iscale isum
  exact sum_map_intdiv _ x a

theorem dotq_iscale (x y : Fin 12 → ℤ) (a b : ℚ) :
    dotq (iscale a x) (iscale b y) = (idot x y : ℚ) / (a * b) := by
  unfold dotq iscale idot
  exact sum_map_intdiv2 _ x y a b

theorem qcov_iscale (x y : Fin 12 → ℤ) (a b : ℚ) (ha : a ≠ 0) (hb : b ≠ 0) :
    qcov (iscale a x) (iscale b y) = (icov x y : ℚ) / (144 * a * b) := by
  rw [qcov, dotq_iscale, vsum_iscale, vsum_iscale, icov]
  push_cast
  field_simp
  ring

theorem qvar_iscale (x : Fin 12 → ℤ) (a : ℚ) (ha : a ≠ 0) :
    qvar (iscale a x) = (icov x x : ℚ) / (144 * a * a) := by
  rw [qvar]
  exact qcov_iscale x x a a ha ha

theorem qvar_iscale_pos (x : Fin 12 → ℤ) (a : ℚ) (ha : 0 < a)
    (h : 0 < icov x x) : 0 < qvar (iscale a x) := by
  rw [qvar_iscale x a (ne_of_gt ha)]
  apply div_pos
  · exact_mod_cast h
  · positivity

theorem cs_transfer (x y : Fin 12 → ℤ) (a b : ℚ) (ha : 0 < a) (hb : 0 < b)
    (h : (icov x y)^2 < icov x x * icov y y) :
    (qcov (iscale a x) (iscale b y))^2 < qvar (iscale a x) * qvar (iscale b y) := by
  rw [qcov_iscale x y a b (ne_of_gt ha) (ne_of_gt hb),
    qvar_iscale x a (ne_of_gt ha), qvar_iscale y b (ne_of_gt hb),
    div_pow, div_mul_div_comm,
    show ((144 * a * b)^2 : ℚ) = (144 * a * a) * (144 * b * b) by ring]
  rw [div_lt_div_iff_of_pos_right (by positivity)]
  exact_mod_cast h

theorem rollq_iscale (x : Fin 12 → ℤ) (a : ℚ) (i : Fin 12) :
    rollq (iscale a x) i = iscale a (irolli x i) := rfl

theorem isum_imaj : isum imaj = 4179 := by decide

theorem isum_imin : isum imin = 4451 := by decide

theorem major_profile_n_eq : major_profile_n = iscale 4179 imaj := by
  have hs : vsum major_profile = 4179 / 100 := by
    rw [show major_profile = iscale 100 imaj from rfl, vsum_iscale, isum_imaj]
    norm_num
  funext j
  rw [major_profile_n, normalizeV, hs]
  show (imaj j : ℚ) / 100 / (4179 / 100) = (imaj j : ℚ) / 4179
  field_simp

theorem minor_profile_n_eq : minor_profile_n = iscale 4451 imin := by
  have hs : vsum minor_profile = 4451 / 100 := by
    rw [show minor_profile = iscale 100 imin from rfl, vsum_iscale, isum_imin]
    norm_num
  funext j
  rw [minor_profile_n, normalizeV, hs]
  show (imin j : ℚ) / 100 / (4451 / 100) = (imin j : ℚ) / 4451
  field_simp

theorem roll_major_n_eq (k : Fin 12) :
    rollq major_profile_n k = iscale 4179 (irolli imaj k) := by
  rw [major_profile_n_eq, rollq_iscale]

theorem roll_minor_n_eq (i : Fin 12) :
    rollq minor_profile_n i = iscale 4451 (irolli imin i) := by
  rw [minor_profile_n_eq, rollq_iscale]

theorem vsum_roll_major_n (k : Fin 12) : vsum (rollq major_profile_n k) = 1 := by
  rw [roll_major_n_eq, vsum_iscale, isum_roll_imaj]
  norm_num

theorem normalizeV_roll_major_n (k : Fin 12) :
    normalizeV (rollq major_profile_n k) = rollq major_profile_n k := by
  funext j
  rw [normalizeV, vsum_roll_major_n, div_one]

theorem qvar_roll_major_n_pos (k : Fin 12) : 0 < qvar (rollq major_profile_n k) := by
  rw [roll_major_n_eq]
  exact qvar_iscale_pos _ _ (by norm_num) (ivar_roll_imaj_pos k)

theorem qvar_roll_minor_n_pos (i : Fin 12) : 0 < qvar (rollq minor_profile_n i) := by
  rw [roll_minor_n_eq]
  exact qvar_iscale_pos _ _ (by norm_num) (ivar_roll_imin_pos i)

theorem qcs_maj_maj (k i : Fin 12) (h : i ≠ k) :
    (qcov (rollq major_profile_n k) (rollq major_profile_n i))^2 <
      qvar (rollq major_profile_n k) * qvar (rollq major_profile_n i) := by
  rw [roll_major_n_eq, roll_major_n_eq]
  exact cs_transfer _ _ _ _ (by norm_num) (by norm_num) (icov_maj_maj_strict k i h)

theorem qcs_maj_min (k i : Fin 12) :
    (qcov (rollq major_profile_n k) (rollq minor_profile_n i))^2 <
      qvar (rollq major_profile_n k) * qvar (rollq minor_profile_n i) := by
  rw [roll_major_n_eq, roll_minor_n_eq]
  exact cs_transfer _ _ _ _ (by norm_num) (by norm_num) (icov_maj_min_strict k i)

theorem corr_self_eq_one {corr : Vec12 → Vec12 → Option ℚ} (hchar : PearsonChar corr)
    {x : Vec12} {c : ℚ} (h : corr x x = some c) (hv : 0 < qvar x) : c = 1 := by
  obtain ⟨hsq, hsgn⟩ := hchar x x c h
  have hcv : qcov x x = qvar x := rfl
  rw [hcv] at hsq hsgn
  have h3 : (c^2 - 1) * (qvar x * qvar x) = 0 := by
    have : (qvar x)^2 = qvar x * qvar x := sq (qvar x) ▸ by ring
    nlinarith [hsq]
  rcases mul_eq_zero.mp h3 with h4 | h4
  · have hc2 : c^2 = 1 := by linarith
    have h5 : (c - 1) * (c + 1) = 0 := by nlinarith
    rcases mul_eq_zero.mp h5 with h6 | h6
    · linarith
    · have hc0 : 0 ≤ c := hsgn.mpr (le_of_lt hv)
      linarith
  · nlinarith [hv]

theorem corr_lt_one {corr : Vec12 → Vec12 → Option ℚ} (hchar : PearsonChar corr)
    {x y : Vec12} {c : ℚ} (h : corr x y = some c) (hvx : 0 < qvar x)
    (hvy : 0 < qvar y) (hcs : (qcov x y)^2 < qvar x * qvar y) : c < 1 := by
  obtain ⟨hsq, _⟩ := hchar x y c h
  have h1 : c^2 * (qvar x * qvar y) < 1 * (qvar x * qvar y) := by
    nlinarith [hsq, hcs]
  have h2 : c^2 < 1 := lt_of_mul_lt_mul_right h1 (by positivity)
  nlinarith [h2]

theorem sum_map_add_q {α : Type} (L : List α) (p q : α → ℚ) :
    (L.map (fun a => p a + q a)).sum = (L.map p).sum + (L.map q).sum := by
  induction L with
  | nil => simp
  | cons h t ih =>
    simp only [List.map_cons, List.sum_cons, ih]
    ring

theorem sum_finRange_ite (g : Fin 12 → ℚ) (i : Fin 12) :
    ((List.finRange 12).map (fun j => if j = i then g j else 0)).sum = g i := by
  rw [← Fin.sum_univ_def, Finset.sum_ite_eq' Finset.univ i g,
    if_pos (Finset.mem_univ i)]

theorem slotScore_flatMap {α : Type} (X : List α) (f : α → List (Key × ℚ)) (k : Key) :
    slotScore (X.flatMap f) k = (X.map (fun a => slotScore (f a) k)).sum := by
  induction X with
  | nil => simp [slotScore_nil, slotScore]
  | cons h t ih =>
    rw [List.flatMap_cons, slotScore_append, ih, List.map_cons, List.sum_cons]

theorem slotScore_matchopt (o : Option ℚ) (k0 k : Key) (w : ℚ) :
    slotScore (match o with
      | some c => [(k0, c * w)]
      | none => []) k =
      if k0 = k then (match o with | some c => c * w | none => 0) else 0 := by
  cases o with
  | none =>
    simp only [slotScore_nil]
    by_cases h : k0 = k
    · rw [if_pos h]
    · rw [if_neg h]
  | some c =>
    rw [slotScore_cons, slotScore_nil, add_zero]

theorem chromaCands_slotScore (corr : Vec12 → Vec12 → Option ℚ) (cm : Vec12)
    (w : ℚ) (i : Fin 12) (m : Mode) :
    slotScore (chromaCands corr cm w) (i, m) =
      (match corr (normalizeV cm) (profOf (i, m)) with
        | some c => c * w
        | none => 0) := by
  rw [chromaCands, slotScore_flatMap]
  have hsplit : ∀ j : Fin 12,
      slotScore ((match corr (normalizeV cm) (rollq major_profile_n j) with
          | some c => [(((j, Mode.major) : Key), c * w)]
          | none => []) ++
        (match corr (normalizeV cm) (rollq minor_profile_n j) with
          | some c => [(((j, Mode.minor) : Key), c * w)]
          | none => [])) (i, m) =
        (if ((j, Mode.major) : Key) = (i, m) then
          (match corr (normalizeV cm) (rollq major_profile_n j) with
            | some c => c * w | none => 0) else 0) +
        (if ((j, Mode.minor) : Key) = (i, m) then
          (match corr (normalizeV cm) (rollq minor_profile_n j) with
            | some c => c * w | none => 0) else 0) := by
    intro j
    rw [slotScore_append, slotScore_matchopt, slotScore_matchopt]
  rw [List.map_congr_left (fun j _ => hsplit j), sum_map_add_q]
  cases m with
  | major =>
    have h2 : ∀ j : Fin 12, (if ((j, Mode.minor) : Key) = (i, Mode.major) then
        (match corr (normalizeV cm) (rollq minor_profile_n j) with
          | some c => c * w | none => 0) else 0) = 0 := by
      intro j
      rw [if_neg (by simp)]
    rw [List.map_congr_left (fun j _ => h2 j)]
    have h1 : ∀ j : Fin 12, (if ((j, Mode.major) : Key) = (i, Mode.major) then
        (match corr (normalizeV cm) (rollq major_profile_n j) with
          | some c => c * w | none => 0) else 0) =
        (if j = i then (match corr (normalizeV cm) (rollq major_profile_n j) with
          | some c => c * w | none => 0) else 0) := by
      intro j
      by_cases h : j = i
      · rw [if_pos (by rw [h]), if_pos h]
      · rw [if_neg (by simp [h]), if_neg h]
    rw [List.map_congr_left (fun j _ => h1 j), sum_finRange_ite]
    simp only [List.map_const', List.sum_replicate, smul_zero, add_zero]
    rfl
  | minor =>
    have h2 : ∀ j : Fin 12, (if ((j, Mode.major) : Key) = (i, Mode.minor) then
        (match corr (normalizeV cm) (rollq major_profile_n j) with
          | some c => c * w | none => 0) else 0) = 0 := by
      intro j
      rw [if_neg (by simp)]
    rw [List.map_congr_left (fun j _ => h2 j)]
    have h1 : ∀ j : Fin 12, (if ((j, Mode.minor) : Key) = (i, Mode.minor) then
        (match corr (normalizeV cm) (rollq minor_profile_n j) with
          | some c => c * w | none => 0) else 0) =
        (if j = i then (match corr (normalizeV cm) (rollq minor_profile_n j) with
          | some c => c * w | none => 0) else 0) := by
      intro j
      by_cases h : j = i
      · rw [if_pos (by rw [h]), if_pos h]
      · rw [if_neg (by simp [h]), if_neg h]
    rw [List.map_congr_left (fun j _ => h1 j), sum_finRange_ite]
    simp only [List.map_const', List.sum_replicate, smul_zero, zero_add]
    rfl

theorem mem_keys_chromaCands {corr : Vec12 → Vec12 → Option ℚ} {cm : Vec12}
    {w : ℚ} {k : Key} (h : k ∈ (chromaCands corr cm w).map Prod.fst) :
    ∃ c, corr (normalizeV cm) (profOf k) = some c := by
  obtain ⟨e, he, hek⟩ := List.mem_map.mp h
  rw [chromaCands] at he
  obtain ⟨j, _, hje⟩ := List.mem_flatMap.mp he
  rcases List.mem_append.mp hje with hmem | hmem
  · cases hcm : corr (normalizeV cm) (rollq major_profile_n j) with
    | none =>
      rw [hcm] at hmem
      simp at hmem
    | some c =>
      rw [hcm] at hmem
      simp only [List.mem_singleton] at hmem
      rw [hmem] at hek
      rw [← hek]
      exact ⟨c, hcm⟩
  · cases hcm : corr (normalizeV cm) (rollq minor_profile_n j) with
    | none =>
      rw [hcm] at hmem
      simp at hmem
    | some c =>
      rw [hcm] at hmem
      simp only [List.mem_singleton] at hmem
      rw [hmem] at hek
      rw [← hek]
      exact ⟨c, hcm⟩

theorem self_mem_chromaCands {corr : Vec12 → Vec12 → Option ℚ} {cm : Vec12}
    {w : ℚ} {c : ℚ} (k : Fin 12)
    (h : corr (normalizeV cm) (rollq major_profile_n k) = some c) :
    (((k, Mode.major) : Key), c * w) ∈ chromaCands corr cm w := by
  rw [chromaCands]
  apply List.mem_flatMap.mpr
  refine ⟨k, List.mem_finRange k, ?_⟩
  apply List.mem_append.mpr
  left
  rw [h]
  simp

/-- C8: if the mean chroma vector handed to every chroma variant of
advanced_key_detection (the three chroma variants and the harmonic
variant) equals the normalised major profile rotated by k semitones, the
external key extractor being unavailable, then — for any correlation
primitive satisfying the Pearson characterisation and defined on the
matching pair — the selected key is (pitch class k, major) and the
returned confidence is 1 (in particular above 0.9): the matching rotation
correlates perfectly while every other rotated profile correlates
strictly below 1 (strict Cauchy-Schwarz between distinct profile
rotations, established exactly over ℚ). -/
theorem key_rotation_correct (k : Fin 12) (corr : Vec12 → Vec12 → Option ℚ)
    (hchar : PearsonChar corr)
    (hself : corr (rollq major_profile_n k) (rollq major_profile_n k) ≠ none) :
    (advanced_key_detection corr (rollq major_profile_n k) (rollq major_profile_n k)
        (rollq major_profile_n k) none (some (rollq major_profile_n k))).1 =
      some ((k, Mode.major) : Key) ∧
    (9:ℚ)/10 < (advanced_key_detection corr (rollq major_profile_n k)
        (rollq major_profile_n k) (rollq major_profile_n k) none
        (some (rollq major_profile_n k))).2 := by
  obtain ⟨c0, hc0⟩ := Option.ne_none_iff_exists'.mp hself
  have hvx : 0 < qvar (rollq major_profile_n k) := qvar_roll_major_n_pos k
  have hc01 : c0 = 1 := corr_self_eq_one hchar hc0 hvx
  rw [hc01] at hc0
  have hnorm : normalizeV (rollq major_profile_n k) = rollq major_profile_n k :=
    normalizeV_roll_major_n k
  have hL : advanced_key_detection corr (rollq major_profile_n k)
      (rollq major_profile_n k) (rollq major_profile_n k) none
      (some (rollq major_profile_n k)) =
      key_aggregate (chromaCands corr (rollq major_profile_n k) (2/5) ++
        chromaCands corr (rollq major_profile_n k) (2/5) ++
        chromaCands corr (rollq major_profile_n k) (1/5) ++
        ([] : List (Key × ℚ)) ++
        chromaCands corr (rollq major_profile_n k) (3/5)) := rfl
  set L := chromaCands corr (rollq major_profile_n k) (2/5) ++
      chromaCands corr (rollq major_profile_n k) (2/5) ++
      chromaCands corr (rollq major_profile_n k) (1/5) ++
      ([] : List (Key × ℚ)) ++
      chromaCands corr (rollq major_profile_n k) (3/5) with hLdef
  have hslot : ∀ (i : Fin 12) (m : Mode), slotScore L (i, m) =
      (match corr (rollq major_profile_n k) (profOf (i, m)) with
        | some c => c * (8/5)
        | none => 0) := by
    intro i m
    rw [hLdef, slotScore_append, slotScore_append, slotScore_append, slotScore_append]
    simp only [chromaCands_slotScore, hnorm, slotScore_nil]
    cases hc : corr (rollq major_profile_n k) (profOf (i, m)) with
    | none => norm_num
    | some c => ring
  have hbestslot : slotScore L ((k, Mode.major)) = 8/5 := by
    rw [hslot k Mode.major]
    rw [show profOf (k, Mode.major) = rollq major_profile_n k from rfl, hc0]
    norm_num
  have hmemL : ((k, Mode.major) : Key) ∈ L.map Prod.fst := by
    have hm1 : (((k, Mode.major) : Key), (1:ℚ) * (2/5)) ∈ L := by
      rw [hLdef]
      refine List.mem_append.mpr (Or.inl ?_)
      refine List.mem_append.mpr (Or.inl ?_)
      refine List.mem_append.mpr (Or.inl ?_)
      refine List.mem_append.mpr (Or.inl ?_)
      exact self_mem_chromaCands k (by rw [hnorm]; exact hc0)
    exact List.mem_map_of_mem Prod.fst hm1
  have huniq : ∀ k' ∈ L.map Prod.fst, k' ≠ (k, Mode.major) →
      slotScore L k' < slotScore L (k, Mode.major) := by
    intro k' hk' hne
    obtain ⟨i, m⟩ := k'
    have hex : ∃ c, corr (normalizeV (rollq major_profile_n k)) (profOf (i, m)) =
        some c := by
      rw [hLdef] at hk'
      simp only [List.map_append, List.mem_append] at hk'
      rcases hk' with ((((h | h) | h) | h) | h)
      · exact mem_keys_chromaCands h
      · exact mem_keys_chromaCands h
      · exact mem_keys_chromaCands h
      · simp at h
      · exact mem_keys_chromaCands h
    rw [hnorm] at hex
    obtain ⟨c, hc⟩ := hex
    have hvy : 0 < qvar (profOf (i, m)) := by
      cases m with
      | major => exact qvar_roll_major_n_pos i
      | minor => exact qvar_roll_minor_n_pos i
    have hcs : (qcov (rollq major_profile_n k) (profOf (i, m)))^2 <
        qvar (rollq major_profile_n k) * qvar (profOf (i, m)) := by
      cases m with
      | major =>
        have hik : i ≠ k := by
          intro hik
          exact hne (by rw [hik])
        exact qcs_maj_maj k i hik
      | minor => exact qcs_maj_min k i
    have hc1 : c < 1 := corr_lt_one hchar hc hvx hvy hcs
    rw [hslot i m, hc, hbestslot]
    show c * (8/5) < (8:ℚ)/5
    nlinarith [hc1]
  have hagg := key_aggregate_unique_max L (k, Mode.major) hmemL huniq
  rw [hbestslot] at hagg
  have hr : round2 (min 1 (max 0 ((8:ℚ)/5))) = 1 := by
    rw [show min (1:ℚ) (max 0 ((8:ℚ)/5)) = 1 by norm_num]
    rw [round2_eq 1 100 (by norm_num) (by norm_num)]
    norm_num
  rw [hr] at hagg
  rw [hL, hagg]
  exact ⟨rfl, by norm_num⟩

/-- C8 witness: the rotation theorem at k = 0 with the concrete
correlation primitive corrExact (defined exactly on identical
positive-variance vectors, where the Pearson correlation is 1). -/
theorem key_rotation_correct_witness :
    (advanced_key_detection corrExact (rollq major_profile_n 0)
        (rollq major_profile_n 0) (rollq major_profile_n 0) none
        (some (rollq major_profile_n 0))).1 = some (((0:Fin 12), Mode.major) : Key) ∧
    (9:ℚ)/10 < (advanced_key_detection corrExact (rollq major_profile_n 0)
        (rollq major_profile_n 0) (rollq major_profile_n 0) none
        (some (rollq major_profile_n 0))).2 := by
  apply key_rotation_correct 0 corrExact
  · intro v w c h
    rw [corrExact] at h
    split_ifs at h with hcond
    · obtain ⟨hvw, hv⟩ := hcond
      subst hvw
      injection h with hc
      rw [← hc]
      constructor
      · rw [show qcov v v = qvar v from rfl]
        ring
      · exact ⟨fun _ => le_of_lt hv, fun _ => by norm_num⟩
  · rw [corrExact]
    rw [if_pos ⟨rfl, qvar_roll_major_n_pos 0⟩]
    simp
